import Mathlib

/-!
Verification of the pocketdb storage engine (src/lib.rs).

The engine is embedded shallowly:

* Files are byte sequences.  Every byte the engine ever writes is ASCII
  (serde_json renders `Vec<u8>` fields as JSON arrays of decimal numbers),
  so a file is modelled as a `List Char` and byte offsets coincide with
  list positions.
* The serde_json line codec is modelled by `encodeKeyVal` /
  `decodeKeyVal` (and `encodeKeyOffset` / `decodeKeyOffset`): the exact
  compact JSON text `serde_json::to_string` emits for the `KeyVal` and
  `KeyOffset` structs, and a strict parser for that emitted grammar.
  `serde_json::from_str` accepts a superset of this grammar, but on every
  string produced by the encoder, and on the malformed inputs used below,
  the two agree (both succeed with the same value, or both fail).
* The `Db` struct keeps the source's fields: the data-log file, the
  index-log file, the in-memory key-to-offset map (`HashMap` modelled as
  an association list whose lookup takes the most recently inserted
  binding, matching `HashMap::insert` overwrite semantics), and
  `last_offset`.
* Fallible steps return `Option` / `Except`.  A Rust `unwrap` panic is
  modelled as `Option.none` (see `boot_fill_index`).  Operating-system
  I/O failures have no counterpart in the pure model; where a claim is
  about them this is recorded in the accompanying results.
-/

namespace PocketDb

/-- Characters of a string literal (all codec text is ASCII). -/
def chars (s : String) : List Char := s.toList

/-- Is `c` an ASCII decimal digit. -/
def isDigitC (c : Char) : Bool := 48 ≤ c.toNat && c.toNat ≤ 57

/-- The ASCII digit for `n < 10`. -/
def digitChar (n : Nat) : Char := Char.ofNat (48 + n)

/-- Fuelled decimal rendering of a natural number (fuel keeps the
recursion structural so that terms reduce inside the kernel). -/
def natToCharsAux : Nat → Nat → List Char → List Char
  | 0, _, acc => acc
  | fuel + 1, n, acc =>
    if n < 10 then digitChar n :: acc
    else natToCharsAux fuel (n / 10) (digitChar (n % 10) :: acc)

/-- Decimal rendering of a natural number, as serde_json prints a `u64`. -/
def natToChars (n : Nat) : List Char := natToCharsAux (n + 1) n []

/-- The `KeyVal` struct of src/lib.rs: one data-log record. -/
structure KeyVal where
  key : List Nat
  val : List Nat
deriving DecidableEq

/-- Comma-separated rendering of the elements of a byte vector. -/
def encodeItems : List Nat → List Char
  | [] => []
  | [b] => natToChars b
  | b :: bs => natToChars b ++ ',' :: encodeItems bs

/-- serde_json rendering of a `Vec<u8>`: a JSON array of numbers. -/
def encodeByteList (bs : List Nat) : List Char :=
  '[' :: (encodeItems bs ++ [']'])

/-- `serde_json::to_string` on a `KeyVal` record. -/
def encodeKeyVal (kv : KeyVal) : List Char :=
  chars "\x7b\"key\":" ++ encodeByteList kv.key ++
    chars ",\"val\":" ++ encodeByteList kv.val ++ ['\x7d']

/-- `serde_json::to_string` on a `KeyOffset` index entry. -/
def encodeKeyOffset (key : List Nat) (off : Nat) : List Char :=
  chars "\x7b\"key\":" ++ encodeByteList key ++
    chars ",\"offset\":" ++ natToChars off ++ ['\x7d']

/-- Digit-at-a-time parser for the elements of a JSON byte array.
`seen` records whether the current element already has at least one
digit, `cur` is its value so far, `acc` the elements parsed so far. -/
def parseItemsCore : List Char → Bool → Nat → List Nat →
    Option (List Nat × List Char)
  | [], _, _, _ => none
  | c :: r, seen, cur, acc =>
    if isDigitC c then parseItemsCore r true (cur * 10 + (c.toNat - 48)) acc
    else if seen then
      if c = ',' then parseItemsCore r false 0 (cur :: acc)
      else if c = ']' then some ((cur :: acc).reverse, r)
      else none
    else none

/-- Parser for a JSON array of numbers, returning the unconsumed rest. -/
def parseByteList : List Char → Option (List Nat × List Char)
  | c :: c2 :: r =>
    if c = '[' then
      if c2 = ']' then some ([], r) else parseItemsCore (c2 :: r) false 0 []
    else none
  | _ => none

/-- Consume an expected literal text, returning the rest. -/
def dropLit : List Char → List Char → Option (List Char)
  | [], l => some l
  | _ :: _, [] => none
  | p :: ps, c :: cs => if c = p then dropLit ps cs else none

/-- Parser for a bare JSON number, returning the unconsumed rest. -/
def parseNatCore : List Char → Bool → Nat → Option (Nat × List Char)
  | [], seen, cur => if seen then some (cur, []) else none
  | c :: r, seen, cur =>
    if isDigitC c then parseNatCore r true (cur * 10 + (c.toNat - 48))
    else if seen then some (cur, c :: r)
    else none

/-- `serde_json::from_str::<KeyVal>` on the emitted record grammar. -/
def decodeKeyVal (l : List Char) : Option KeyVal := do
  let l1 ← dropLit (chars "\x7b\"key\":") l
  let (k, l2) ← parseByteList l1
  let l3 ← dropLit (chars ",\"val\":") l2
  let (v, l4) ← parseByteList l3
  let l5 ← dropLit ['\x7d'] l4
  if l5 = [] then some ⟨k, v⟩ else none

/-- `serde_json::from_str::<KeyOffset>` on the emitted entry grammar. -/
def decodeKeyOffset (l : List Char) : Option (List Nat × Nat) := do
  let l1 ← dropLit (chars "\x7b\"key\":") l
  let (k, l2) ← parseByteList l1
  let l3 ← dropLit (chars ",\"offset\":") l2
  let (off, l4) ← parseNatCore l3 false 0
  let l5 ← dropLit ['\x7d'] l4
  if l5 = [] then some (k, off) else none

/-- Error taxonomy of the spec.  The pure model never produces
`ioError`: operating-system failures are outside a pure embedding. -/
inductive DbError
  | notFound
  | decodeError
  | ioError
deriving DecidableEq

/-- The `Db` struct of src/lib.rs.  `offset` is the `HashMap` (as an
association list: lookup returns the most recently inserted binding). -/
structure Db where
  file : List Char
  index_file : List Char
  offset : List (List Nat × Nat)
  last_offset : Nat
deriving DecidableEq

/-- `HashMap::get`: the most recently inserted binding for the key. -/
def lookupO : List (List Nat × Nat) → List Nat → Option Nat
  | [], _ => none
  | e :: rest, k => if e.1 = k then some e.2 else lookupO rest k

/-- Positional file write: seek to `p` then write `s`, overwriting bytes
in place and zero-filling any gap past the old end (POSIX semantics). -/
def writeAt (f : List Char) (p : Nat) (s : List Char) : List Char :=
  f.take p ++ List.replicate (p - f.length) (Char.ofNat 0) ++ s ++
    f.drop (p + s.length)

/-- ASCII whitespace, as trimmed by Rust `str::trim_end`. -/
def isWS (c : Char) : Bool := c = ' ' || c = '\n' || c = '\t' || c = '\x0d'

/-- Rust `str::trim_end`. -/
def trimEnd (l : List Char) : List Char := (l.reverse.dropWhile isWS).reverse

/-- The line written for one record: its encoding plus the `END` string. -/
def encLine (kv : KeyVal) : List Char := encodeKeyVal kv ++ ['\n']

/-- `Db::store_db`: seek to `last_offset`, write the encoded record plus
newline, advance `last_offset` by the number of bytes written. -/
def store_db (db : Db) (kv : KeyVal) : Db :=
  let s := encLine kv
  { db with
      file := writeAt db.file db.last_offset s
      last_offset := db.last_offset + s.length }

/-- `Db::store_index_stable`: append one encoded index entry line to the
index file (the file cursor sits at end-of-file after recovery). -/
def store_index_stable (db : Db) (key : List Nat) (off : Nat) :
    Db × (List Nat × Nat) :=
  let s := encodeKeyOffset key off ++ ['\n']
  ({ db with index_file := db.index_file ++ s }, (key, off))

/-- `Db::store_index`: durable append, then insert into the hashmap. -/
def store_index (db : Db) (key : List Nat) (off : Nat) : Db :=
  let r := store_index_stable db key off
  { r.1 with offset := r.2 :: r.1.offset }

/-- `Db::put`: index entry (at the current `last_offset`) first, then the
data-log record.  The source `unwrap`s the index write; the pure model
has no I/O failure, so the happy path is total here (claim C5 records
the abort behaviour). -/
def put (db : Db) (key val : List Nat) : Db :=
  store_db (store_index db key db.last_offset) ⟨key, val⟩

/-- `Db::get_offset`: hashmap lookup. -/
def get_offset (db : Db) (key : List Nat) : Option Nat := lookupO db.offset key

/-- `Db::fetch_db`: seek to `offset`, `read_line` (the bytes up to and
including the next newline), `trim_end`, decode.  The state is threaded
through unchanged, mirroring the `&mut self` receiver. -/
def fetch_db (db : Db) (off : Nat) : Db × Except DbError KeyVal :=
  let line := trimEnd ((db.file.drop off).takeWhile (fun c => c != '\n'))
  match decodeKeyVal line with
  | some kv => (db, Except.ok kv)
  | none => (db, Except.error DbError.decodeError)

/-- `Db::get`: look the key up in the index; absent keys are a
`NotFound` error, otherwise read the record at the stored offset. -/
def get (db : Db) (key : List Nat) : Db × Except DbError KeyVal :=
  match get_offset db key with
  | some off => fetch_db db off
  | none => (db, Except.error DbError.notFound)

/-- `BufRead::lines`: split at newline bytes, stripping a carriage
return before the newline; a last line without terminator is yielded,
a trailing newline yields no extra empty line. -/
def splitLinesAux : List Char → List Char → List (List Char)
  | [], acc => if acc.isEmpty then [] else [acc.reverse]
  | c :: r, acc =>
    if c = '\n' then
      (match acc with
        | '\x0d' :: t => t.reverse
        | _ => acc.reverse) :: splitLinesAux r []
    else splitLinesAux r (c :: acc)

def splitLines (f : List Char) : List (List Char) := splitLinesAux f []

/-- `str::trim_end_matches(END)`: drop every trailing newline. -/
def trimNewlines (l : List Char) : List Char :=
  (l.reverse.dropWhile (fun c => c == '\n')).reverse

/-- The replay loop of `Db::boot_fill_index`: decode each line and
insert it into the hashmap.  The source `unwrap`s the decode result, so
a malformed line aborts the process: modelled as `none`. -/
def bootLines : List (List Char) → Db → Option Db
  | [], db => some db
  | line :: rest, db =>
    match decodeKeyOffset (trimNewlines line) with
    | some ko => bootLines rest { db with offset := ko :: db.offset }
    | none => none

/-- `Db::boot_fill_index`. -/
def boot_fill_index (db : Db) : Option Db :=
  bootLines (splitLines db.index_file) db

/-- `open`: build the store with an empty hashmap and `last_offset  := 0`
(the source initialises it to the constant zero, not the data-file
length), then replay the index log.  The two file arguments are the
on-disk contents found at the data path and the index path (the data
path plus the ".idx" suffix); a fresh path has both empty. -/
def openDb (dataContents idxContents : List Char) : Option Db :=
  boot_fill_index
    { file := dataContents
      index_file := idxContents
      offset := []
      last_offset := 0 }

/-- `foldl`-composition of a list of `put` calls, in order. -/
def putList (db : Db) (ops : List (List Nat × List Nat)) : Db :=
  ops.foldl (fun d p => put d p.1 p.2) db

/-- The value of the last `put` for key `k` in `ops`, if any. -/
def lastVal (k : List Nat) (ops : List (List Nat × List Nat)) :
    Option (List Nat) :=
  ops.foldl (fun acc p => if p.1 = k then some p.2 else acc) none

/-- The index entries recorded by a sequence of `put` calls: each `put`
stores its key together with the `last_offset` current at call time
(the argument `Db::put` passes to `store_index`). -/
def sessionEntries : Db → List (List Nat × List Nat) → List (List Nat × Nat)
  | _, [] => []
  | db, p :: rest => (p.1, db.last_offset) :: sessionEntries (put db p.1 p.2) rest

/-- Observable append events of one `put`, for the write-ordering claim. -/
inductive Ev
  | idxAppend (key : List Nat) (off : Nat)
  | dataAppend (kv : KeyVal)
deriving DecidableEq

/-- `Db::store_index_stable`, instrumented with its append event. -/
def store_index_stableTr (db : Db) (key : List Nat) (off : Nat) :
    List Ev × (Db × (List Nat × Nat)) :=
  ([Ev.idxAppend key off], store_index_stable db key off)

/-- `Db::store_index`, instrumented. -/
def store_indexTr (db : Db) (key : List Nat) (off : Nat) : List Ev × Db :=
  let r := store_index_stableTr db key off
  (r.1, { r.2.1 with offset := r.2.2 :: r.2.1.offset })

/-- `Db::store_db`, instrumented with its append event. -/
def store_dbTr (db : Db) (kv : KeyVal) : List Ev × Db :=
  ([Ev.dataAppend kv], store_db db kv)

/-- `Db::put`, instrumented: the emitted event list is in execution
order (the index append is performed before the data append). -/
def putTr (db : Db) (key val : List Nat) : List Ev × Db :=
  let r1 := store_indexTr db key db.last_offset
  let r2 := store_dbTr r1.2 ⟨key, val⟩
  (r1.1 ++ r2.1, r2.2)

/-- The store state right after a fresh `open` (both files empty):
`openDb [] []` evaluates to exactly this state. -/
def freshDb : Db := { file := [], index_file := [], offset := [], last_offset := 0 }

/-- A nonempty data-log file: the single record the concrete C1
scenario leaves on disk. -/
def c1Data : List Char := encLine ⟨[72], [87]⟩

/-- An index-log file whose single line is not a well-formed entry. -/
def c5BadIdx : List Char := chars "garbage" ++ ['\n']

/-- An index-log file with one well-formed entry followed by one
malformed line. -/
def c8BadIdx : List Char :=
  encodeKeyOffset [1] 0 ++ ['\n'] ++ chars "junk" ++ ['\n']

/-- The three records of the spec's durability scenario, as bytes:
"Hello" / "World", "Name" / "Aziz", "Age" / "25". -/
def c2Ops : List (List Nat × List Nat) :=
  [([72, 101, 108, 108, 111], [87, 111, 114, 108, 100]),
   ([78, 97, 109, 101], [65, 122, 105, 122]),
   ([65, 103, 101], [50, 53])]

/-- The first session of the durability scenario: fresh open, three puts. -/
def c2Session : Option Db := (openDb [] []).map (fun db0 => putList db0 c2Ops)

/-- Well-formedness of a store state: the next-append position never
exceeds the data-file length.  It holds after every `open` (which sets
`last_offset` to zero) and is preserved by `put`. -/
def Inv (db : Db) : Prop := db.last_offset ≤ db.file.length

/-- The record for `(k, v)` is durably readable: the index maps `k` to
an offset at which the data file carries the encoded record line, and
the whole line lies below the next-append position. -/
def Holds (db : Db) (k v : List Nat) : Prop :=
  ∃ off rest, lookupO db.offset k = some off ∧
    off + (encLine ⟨k, v⟩).length ≤ db.last_offset ∧
    db.file.drop off = encLine ⟨k, v⟩ ++ rest

end PocketDb

namespace PocketDb

theorem digitChar_toNat : ∀ m, m < 10 → (digitChar m).toNat = 48 + m := by decide

theorem isDigitC_digitChar : ∀ m, m < 10 → isDigitC (digitChar m) = true := by decide

theorem natToCharsAux_acc (fuel : Nat) : ∀ n acc,
    natToCharsAux fuel n acc = natToCharsAux fuel n [] ++ acc := by
  induction fuel with
  | zero => intro n acc; rfl
  | succ f ih =>
    intro n acc
    by_cases h : n < 10
    · simp [natToCharsAux, h]
    · simp only [natToCharsAux, if_neg h]
      rw [ih (n / 10) (digitChar (n % 10) :: acc), ih (n / 10) [digitChar (n % 10)]]
      simp

theorem natToCharsAux_fuel : ∀ n fuel fuel2, n < fuel → n < fuel2 →
    natToCharsAux fuel n [] = natToCharsAux fuel2 n [] := by
  intro n
  induction n using Nat.strong_induction_on with
  | _ n ih =>
    intro fuel fuel2 hf hf2
    cases fuel with
    | zero => exact absurd hf (Nat.not_lt_zero n)
    | succ f =>
      cases fuel2 with
      | zero => exact absurd hf2 (Nat.not_lt_zero n)
      | succ f2 =>
        by_cases h : n < 10
        · simp [natToCharsAux, h]
        · have hdiv : n / 10 < n := Nat.div_lt_self (by omega) (by omega)
          simp only [natToCharsAux, if_neg h]
          rw [natToCharsAux_acc f, natToCharsAux_acc f2,
            ih (n / 10) hdiv f f2 (by omega) (by omega)]

theorem natToChars_lt (n : Nat) (h : n < 10) : natToChars n = [digitChar n] := by
  simp [natToChars, natToCharsAux, h]

theorem natToChars_ge (n : Nat) (h : 10 ≤ n) :
    natToChars n = natToChars (n / 10) ++ [digitChar (n % 10)] := by
  have h2 : ¬ n < 10 := by omega
  have hdiv : n / 10 < n := Nat.div_lt_self (by omega) (by omega)
  have step : natToChars n = natToCharsAux n (n / 10) [digitChar (n % 10)] := by
    show natToCharsAux (n + 1) n [] = _
    simp only [natToCharsAux, if_neg h2]
  rw [step, natToCharsAux_acc n (n / 10) [digitChar (n % 10)],
    natToCharsAux_fuel (n / 10) n (n / 10 + 1) hdiv (Nat.lt_succ_self _)]
  rfl

theorem natToChars_digits : ∀ n c, c ∈ natToChars n → isDigitC c = true := by
  intro n
  induction n using Nat.strong_induction_on with
  | _ n ih =>
    intro c hc
    by_cases h : n < 10
    · rw [natToChars_lt n h] at hc
      simp at hc
      subst hc
      exact isDigitC_digitChar n h
    · have h10 : 10 ≤ n := Nat.le_of_not_lt h
      rw [natToChars_ge n h10] at hc
      rcases List.mem_append.mp hc with h1 | h1
      · exact ih (n / 10) (Nat.div_lt_self (by omega) (by omega)) c h1
      · simp at h1
        subst h1
        exact isDigitC_digitChar _ (Nat.mod_lt _ (by omega))

theorem natToChars_cons : ∀ n, ∃ c t, natToChars n = c :: t ∧ isDigitC c = true := by
  intro n
  induction n using Nat.strong_induction_on with
  | _ n ih =>
    by_cases h : n < 10
    · exact ⟨digitChar n, [], natToChars_lt n h, isDigitC_digitChar n h⟩
    · have h10 : 10 ≤ n := Nat.le_of_not_lt h
      obtain ⟨c, t, hct, hd⟩ := ih (n / 10) (Nat.div_lt_self (by omega) (by omega))
      exact ⟨c, t ++ [digitChar (n % 10)], by rw [natToChars_ge n h10, hct]; simp, hd⟩

theorem parseItemsCore_digit (c : Char) (hd : isDigitC c = true) (r : List Char)
    (seen : Bool) (cur : Nat) (acc : List Nat) :
    parseItemsCore (c :: r) seen cur acc =
      parseItemsCore r true (cur * 10 + (c.toNat - 48)) acc := by
  simp [parseItemsCore, hd]

theorem parseItemsCore_nat : ∀ n rest seen acc,
    parseItemsCore (natToChars n ++ rest) seen 0 acc =
      parseItemsCore rest true n acc := by
  intro n
  induction n using Nat.strong_induction_on with
  | _ n ih =>
    intro rest seen acc
    by_cases h : n < 10
    · rw [natToChars_lt n h, List.singleton_append,
        parseItemsCore_digit _ (isDigitC_digitChar n h), digitChar_toNat n h]
      have e : 0 * 10 + (48 + n - 48) = n := by omega
      rw [e]
    · have h10 : 10 ≤ n := Nat.le_of_not_lt h
      have hm : n % 10 < 10 := Nat.mod_lt _ (by omega)
      rw [natToChars_ge n h10, List.append_assoc,
        ih (n / 10) (Nat.div_lt_self (by omega) (by omega)), List.singleton_append,
        parseItemsCore_digit _ (isDigitC_digitChar _ hm), digitChar_toNat _ hm]
      have e : n / 10 * 10 + (48 + n % 10 - 48) = n := by omega
      rw [e]

theorem isDigitC_ne_rbracket {c : Char} (h : isDigitC c = true) : c ≠ ']' := by
  intro he
  subst he
  exact absurd h (by decide)

theorem parseItemsCore_items : ∀ bs b acc rest,
    parseItemsCore (encodeItems (b :: bs) ++ (']' :: rest)) false 0 acc =
      some (acc.reverse ++ b :: bs, rest) := by
  intro bs
  induction bs with
  | nil =>
    intro b acc rest
    show parseItemsCore (natToChars b ++ (']' :: rest)) false 0 acc = _
    rw [parseItemsCore_nat]
    show parseItemsCore (']' :: rest) true b acc = _
    simp [parseItemsCore, (by decide : isDigitC ']' = false),
      (by decide : (']' : Char) ≠ ',')]
  | cons b2 t ih =>
    intro b acc rest
    show parseItemsCore ((natToChars b ++ ',' :: encodeItems (b2 :: t)) ++ (']' :: rest))
        false 0 acc = _
    rw [List.append_assoc, parseItemsCore_nat, List.cons_append]
    simp [parseItemsCore, (by decide : isDigitC ',' = false), ih b2 (b :: acc) rest]

theorem encodeItems_head (b : Nat) (t : List Nat) :
    ∃ c cs, encodeItems (b :: t) = c :: cs ∧ isDigitC c = true := by
  obtain ⟨c, cs, hct, hd⟩ := natToChars_cons b
  cases t with
  | nil => exact ⟨c, cs, by simp [encodeItems, hct], hd⟩
  | cons b2 t2 =>
    exact ⟨c, cs ++ ',' :: encodeItems (b2 :: t2), by simp [encodeItems, hct], hd⟩

theorem parseByteList_encode : ∀ bs rest,
    parseByteList (encodeByteList bs ++ rest) = some (bs, rest) := by
  intro bs rest
  cases bs with
  | nil =>
    show parseByteList ('[' :: ']' :: rest) = _
    simp [parseByteList]
  | cons b t =>
    obtain ⟨c, cs, hct, hd⟩ := encodeItems_head b t
    have hform : encodeByteList (b :: t) ++ rest = '[' :: c :: (cs ++ (']' :: rest)) := by
      simp [encodeByteList, hct, List.append_assoc]
    rw [hform]
    simp only [parseByteList]
    rw [if_pos trivial, if_neg (isDigitC_ne_rbracket hd)]
    have hback : c :: (cs ++ (']' :: rest)) = encodeItems (b :: t) ++ (']' :: rest) := by
      rw [hct]
      simp
    rw [hback, parseItemsCore_items]
    simp

theorem parseNatCore_nat : ∀ n rest seen,
    parseNatCore (natToChars n ++ rest) seen 0 = parseNatCore rest true n := by
  intro n
  induction n using Nat.strong_induction_on with
  | _ n ih =>
    intro rest seen
    by_cases h : n < 10
    · rw [natToChars_lt n h, List.singleton_append]
      simp only [parseNatCore]
      rw [if_pos (isDigitC_digitChar n h), digitChar_toNat n h]
      have e : 0 * 10 + (48 + n - 48) = n := by omega
      rw [e]
    · have h10 : 10 ≤ n := Nat.le_of_not_lt h
      have hm : n % 10 < 10 := Nat.mod_lt _ (by omega)
      rw [natToChars_ge n h10, List.append_assoc,
        ih (n / 10) (Nat.div_lt_self (by omega) (by omega)), List.singleton_append]
      simp only [parseNatCore]
      rw [if_pos (isDigitC_digitChar _ hm), digitChar_toNat _ hm]
      have e : n / 10 * 10 + (48 + n % 10 - 48) = n := by omega
      rw [e]

theorem dropLit_append : ∀ p l, dropLit p (p ++ l) = some l := by
  intro p
  induction p with
  | nil => intro l; rfl
  | cons c cs ih => intro l; simp [dropLit, ih]

theorem dropLit_self (p : List Char) : dropLit p p = some [] := by
  have h := dropLit_append p []
  simpa using h

theorem decodeKeyVal_encode (kv : KeyVal) : decodeKeyVal (encodeKeyVal kv) = some kv := by
  simp [decodeKeyVal, encodeKeyVal, List.append_assoc, dropLit_append,
    parseByteList_encode, dropLit_self]

theorem decodeKeyOffset_encode (k : List Nat) (off : Nat) :
    decodeKeyOffset (encodeKeyOffset k off) = some (k, off) := by
  simp [decodeKeyOffset, encodeKeyOffset, List.append_assoc, dropLit_append,
    parseByteList_encode, parseNatCore_nat, parseNatCore,
    (by decide : isDigitC '\x7d' = false), dropLit_self]

theorem nl_not_mem_natToChars (n : Nat) : '\n' ∉ natToChars n := by
  intro hm
  exact absurd (natToChars_digits n _ hm) (by decide)

theorem nl_not_mem_encodeItems : ∀ bs, '\n' ∉ encodeItems bs := by
  intro bs
  induction bs with
  | nil => simp [encodeItems]
  | cons b t ih =>
    cases t with
    | nil =>
      show '\n' ∉ natToChars b
      exact nl_not_mem_natToChars b
    | cons b2 t2 =>
      intro hm
      simp only [encodeItems] at hm
      rcases List.mem_append.mp hm with h1 | h1
      · exact nl_not_mem_natToChars b h1
      · rcases List.mem_cons.mp h1 with h2 | h2
        · exact absurd h2 (by decide)
        · exact ih h2

theorem nl_not_mem_encodeByteList (bs : List Nat) : '\n' ∉ encodeByteList bs := by
  intro hm
  simp only [encodeByteList] at hm
  rcases List.mem_cons.mp hm with h | h
  · exact absurd h (by decide)
  · rcases List.mem_append.mp h with h1 | h1
    · exact nl_not_mem_encodeItems bs h1
    · rcases List.mem_singleton.mp h1 with h2
      exact absurd h2 (by decide)

theorem nl_not_mem_encodeKeyVal (kv : KeyVal) : '\n' ∉ encodeKeyVal kv := by
  intro hm
  simp only [encodeKeyVal, List.append_assoc] at hm
  rcases List.mem_append.mp hm with h | h
  · exact absurd h (by decide)
  · rcases List.mem_append.mp h with h1 | h1
    · exact nl_not_mem_encodeByteList kv.key h1
    · rcases List.mem_append.mp h1 with h2 | h2
      · exact absurd h2 (by decide)
      · rcases List.mem_append.mp h2 with h3 | h3
        · exact nl_not_mem_encodeByteList kv.val h3
        · rcases List.mem_singleton.mp h3 with h4
          exact absurd h4 (by decide)

theorem takeWhile_append_stop (p : Char → Bool) :
    ∀ (a : List Char) (c : Char) (b : List Char), (∀ x ∈ a, p x = true) → p c = false →
    (a ++ c :: b).takeWhile p = a := by
  intro a
  induction a with
  | nil =>
    intro c b _ hc
    simp [List.takeWhile_cons, hc]
  | cons x xs ih =>
    intro c b ha hc
    have hx : p x = true := ha x (by simp)
    simp only [List.cons_append, List.takeWhile_cons, hx, if_pos trivial]
    rw [ih c b (fun y hy => ha y (by simp [hy])) hc]

theorem trimEnd_rbrace (l : List Char) : trimEnd (l ++ ['\x7d']) = l ++ ['\x7d'] := by
  simp [trimEnd, List.reverse_append, List.dropWhile_cons,
    (by decide : isWS '\x7d' = false)]

theorem encodeKeyVal_rbrace (kv : KeyVal) :
    encodeKeyVal kv = (chars "\x7b\"key\":" ++ encodeByteList kv.key ++
      chars ",\"val\":" ++ encodeByteList kv.val) ++ ['\x7d'] := by
  simp [encodeKeyVal, List.append_assoc]

theorem fetch_db_of_line (db : Db) (off : Nat) (kv : KeyVal) (rest : List Char)
    (h : db.file.drop off = encLine kv ++ rest) :
    fetch_db db off = (db, Except.ok kv) := by
  have hsplit : encLine kv ++ rest = encodeKeyVal kv ++ '\n' :: rest := by
    simp [encLine]
  have hline : (db.file.drop off).takeWhile (fun c => c != '\n') = encodeKeyVal kv := by
    rw [h, hsplit]
    apply takeWhile_append_stop
    · intro x hx
      have hne : x ≠ '\n' := fun he => nl_not_mem_encodeKeyVal kv (he ▸ hx)
      simpa using hne
    · simp
  simp only [fetch_db, hline]
  rw [encodeKeyVal_rbrace kv, trimEnd_rbrace, ← encodeKeyVal_rbrace kv,
    decodeKeyVal_encode]

theorem writeAt_of_le (f : List Char) (p : Nat) (s : List Char) (h : p ≤ f.length) :
    writeAt f p s = f.take p ++ s ++ f.drop (p + s.length) := by
  simp [writeAt, Nat.sub_eq_zero_of_le h]

theorem length_take_of_le (f : List Char) (p : Nat) (h : p ≤ f.length) :
    (f.take p).length = p := by
  rw [List.length_take]
  omega

theorem length_writeAt (f : List Char) (p : Nat) (s : List Char) (h : p ≤ f.length) :
    p + s.length ≤ (writeAt f p s).length := by
  rw [writeAt_of_le f p s h]
  simp [List.length_append, length_take_of_le f p h]

theorem drop_writeAt_self (f : List Char) (p : Nat) (s : List Char) (h : p ≤ f.length) :
    (writeAt f p s).drop p = s ++ f.drop (p + s.length) := by
  rw [writeAt_of_le f p s h, List.append_assoc]
  exact List.drop_left' (length_take_of_le f p h)

theorem drop_writeAt_of_le (f : List Char) (p : Nat) (s : List Char)
    (off : Nat) (pre rest : List Char)
    (hk : off + pre.length ≤ p) (hp : p ≤ f.length)
    (hdrop : f.drop off = pre ++ rest) :
    ∃ rest2, (writeAt f p s).drop off = pre ++ rest2 := by
  have hoffp : off ≤ p := by omega
  refine ⟨rest.take (p - off - pre.length) ++ (s ++ f.drop (p + s.length)), ?_⟩
  rw [writeAt_of_le f p s hp, List.append_assoc, List.drop_append_eq_append_drop,
    length_take_of_le f p hp, Nat.sub_eq_zero_of_le hoffp, List.drop_zero]
  have e : off + (p - off) = p := by omega
  have h2 := List.take_drop off (p - off) f
  rw [e] at h2
  rw [← h2, hdrop, List.take_append_eq_append_take,
    List.take_of_length_le (by omega : pre.length ≤ p - off), List.append_assoc]

theorem put_file (db : Db) (k v : List Nat) :
    (put db k v).file = writeAt db.file db.last_offset (encLine ⟨k, v⟩) := rfl

theorem put_offset (db : Db) (k v : List Nat) :
    (put db k v).offset = (k, db.last_offset) :: db.offset := rfl

theorem put_last (db : Db) (k v : List Nat) :
    (put db k v).last_offset = db.last_offset + (encLine ⟨k, v⟩).length := rfl

theorem inv_put (db : Db) (k v : List Nat) (h : Inv db) : Inv (put db k v) := by
  show (put db k v).last_offset ≤ (put db k v).file.length
  rw [put_last, put_file]
  exact length_writeAt db.file db.last_offset (encLine ⟨k, v⟩) h

theorem holds_put_self (db : Db) (k v : List Nat) (h : Inv db) :
    Holds (put db k v) k v := by
  refine ⟨db.last_offset,
    db.file.drop (db.last_offset + (encLine ⟨k, v⟩).length), ?_, ?_, ?_⟩
  · rw [put_offset]
    simp [lookupO]
  · simp [put_last]
  · rw [put_file]
    exact drop_writeAt_self db.file db.last_offset (encLine ⟨k, v⟩) h

theorem holds_put_other (db : Db) (k v k2 v2 : List Nat)
    (h : Holds db k v) (hinv : Inv db) (hne : k2 ≠ k) :
    Holds (put db k2 v2) k v := by
  obtain ⟨off, rest, hl, hle, hd⟩ := h
  obtain ⟨rest2, hd2⟩ := drop_writeAt_of_le db.file db.last_offset
    (encLine ⟨k2, v2⟩) off (encLine ⟨k, v⟩) rest hle hinv hd
  refine ⟨off, rest2, ?_, ?_, ?_⟩
  · rw [put_offset]
    simp [lookupO, hne, hl]
  · rw [put_last]
    omega
  · rw [put_file]
    exact hd2

theorem get_of_holds (db : Db) (k v : List Nat) (h : Holds db k v) :
    (get db k).2 = Except.ok ⟨k, v⟩ := by
  obtain ⟨off, rest, hl, _, hd⟩ := h
  simp only [get, get_offset, hl, fetch_db_of_line db off ⟨k, v⟩ rest hd]

theorem bootLines_state : ∀ (ls : List (List Char)) (db db2 : Db),
    bootLines ls db = some db2 →
    db2.file = db.file ∧ db2.last_offset = db.last_offset := by
  intro ls
  induction ls with
  | nil =>
    intro db db2 h
    injection h with h
    subst h
    exact ⟨rfl, rfl⟩
  | cons line rest ih =>
    intro db db2 h
    cases hdec : decodeKeyOffset (trimNewlines line) with
    | none => simp [bootLines, hdec] at h
    | some ko =>
      simp only [bootLines, hdec] at h
      have h3 := ih _ _ h
      exact h3

theorem openDb_state (d i : List Char) (db : Db) (h : openDb d i = some db) :
    db.file = d ∧ db.last_offset = 0 := by
  have h2 : bootLines (splitLines i)
      { file := d, index_file := i, offset := [], last_offset := 0 } = some db := h
  exact bootLines_state (splitLines i) _ db h2

theorem openDb_inv (d i : List Char) (db : Db) (h : openDb d i = some db) : Inv db := by
  obtain ⟨hf, hl⟩ := openDb_state d i db h
  show db.last_offset ≤ db.file.length
  rw [hl]
  exact Nat.zero_le _

theorem lastVal_init : ∀ (ops : List (List Nat × List Nat))
    (a : Option (List Nat)) (k : List Nat),
    ops.foldl (fun acc p => if p.1 = k then some p.2 else acc) a =
      match lastVal k ops with
      | some w => some w
      | none => a := by
  intro ops
  induction ops with
  | nil => intro a k; rfl
  | cons p t ih =>
    intro a k
    simp only [List.foldl_cons, lastVal]
    rw [ih, ih]
    cases hlt : lastVal k t with
    | some w => simp [hlt]
    | none =>
      by_cases hp : p.1 = k
      · simp [hlt, hp]
      · simp [hlt, hp]

theorem lastVal_cons (p : List Nat × List Nat) (t : List (List Nat × List Nat))
    (k : List Nat) :
    lastVal k (p :: t) =
      match lastVal k t with
      | some w => some w
      | none => if p.1 = k then some p.2 else none := by
  simp only [lastVal, List.foldl_cons]
  rw [lastVal_init]
  rfl

theorem lww_aux : ∀ (ops : List (List Nat × List Nat)) (db : Db) (k v : List Nat),
    Inv db →
    (lastVal k ops = some v ∨ (lastVal k ops = none ∧ Holds db k v)) →
    Holds (putList db ops) k v := by
  intro ops
  induction ops with
  | nil =>
    intro db k v hinv H
    rcases H with h | ⟨_, h⟩
    · simp [lastVal] at h
    · exact h
  | cons p t ih =>
    intro db k v hinv H
    have hput : Inv (put db p.1 p.2) := inv_put db p.1 p.2 hinv
    cases hlt : lastVal k t with
    | some w =>
      rcases H with h | ⟨h, _⟩
      · have hv : w = v := by
          rw [lastVal_cons, hlt] at h
          simpa using h
        subst hv
        exact ih (put db p.1 p.2) k w hput (Or.inl hlt)
      · rw [lastVal_cons, hlt] at h
        simp at h
    | none =>
      by_cases hp : p.1 = k
      · subst hp
        rcases H with h | ⟨h, _⟩
        · have hv : p.2 = v := by
            rw [lastVal_cons, hlt] at h
            simpa using h
          subst hv
          exact ih (put db p.1 p.2) p.1 p.2 hput
            (Or.inr ⟨hlt, holds_put_self db p.1 p.2 hinv⟩)
        · rw [lastVal_cons, hlt] at h
          simp at h
      · rcases H with h | ⟨h, hH⟩
        · rw [lastVal_cons, hlt] at h
          simp [hp] at h
        · exact ih (put db p.1 p.2) k v hput
            (Or.inr ⟨hlt, holds_put_other db k v p.1 p.2 hH hinv hp⟩)

theorem last_offset_le_put (db : Db) (k v : List Nat) :
    db.last_offset ≤ (put db k v).last_offset := by
  rw [put_last]
  omega

theorem sessionEntries_lb : ∀ (ops : List (List Nat × List Nat)) (db : Db) (x : Nat),
    x ∈ (sessionEntries db ops).map Prod.snd → db.last_offset ≤ x := by
  intro ops
  induction ops with
  | nil => intro db x hx; simp [sessionEntries] at hx
  | cons p t ih =>
    intro db x hx
    simp only [sessionEntries, List.map_cons] at hx
    rcases List.mem_cons.mp hx with h | h
    · omega
    · exact Nat.le_trans (last_offset_le_put db p.1 p.2) (ih (put db p.1 p.2) x h)

theorem sessionEntries_pairwise : ∀ (ops : List (List Nat × List Nat)) (db : Db),
    List.Pairwise (fun a b => a ≤ b) ((sessionEntries db ops).map Prod.snd) := by
  intro ops
  induction ops with
  | nil => intro db; simp [sessionEntries]
  | cons p t ih =>
    intro db
    simp only [sessionEntries, List.map_cons]
    refine List.Pairwise.cons ?_ (ih (put db p.1 p.2))
    intro x hx
    exact Nat.le_trans (last_offset_le_put db p.1 p.2) (sessionEntries_lb t _ x hx)

theorem putList_offset_entries : ∀ (ops : List (List Nat × List Nat)) (db : Db),
    (putList db ops).offset = (sessionEntries db ops).reverse ++ db.offset := by
  intro ops
  induction ops with
  | nil => intro db; rfl
  | cons p t ih =>
    intro db
    show (putList (put db p.1 p.2) t).offset = _
    rw [ih (put db p.1 p.2), put_offset]
    simp [sessionEntries, List.reverse_cons, List.append_assoc]

/-- C1: the spec requires the next-append position established at `open`
to equal the data-file length.  The source initialises it to the
constant zero: reopening a store whose data log is nonempty yields
`last_offset = 0` even though the file length is not zero. -/
theorem c1_open_append_position_zero :
    (openDb c1Data []).map (fun db => db.last_offset) = some 0 ∧
      c1Data.length ≠ 0 := by
  exact ⟨rfl, by decide⟩

set_option maxRecDepth 100000 in
/-- C2: the durability scenario.  From a fresh store, put
"Hello"/"World", "Name"/"Aziz" and "Age"/"25"; reopening a new store
instance on the files left behind and reading the three keys returns
exactly the three stored values. -/
theorem c2_durability :
    (c2Session.bind fun db1 => (openDb db1.file db1.index_file).map fun db2 =>
      ((get db2 [72, 101, 108, 108, 111]).2, (get db2 [78, 97, 109, 101]).2,
        (get db2 [65, 103, 101]).2)) =
    some (Except.ok ⟨[72, 101, 108, 108, 111], [87, 111, 114, 108, 100]⟩,
      Except.ok ⟨[78, 97, 109, 101], [65, 122, 105, 122]⟩,
      Except.ok ⟨[65, 103, 101], [50, 53]⟩) := by
  rfl

/-- C3: round-trip.  On a freshly opened store, `put key val` followed
by `get key` returns exactly the stored record, for arbitrary byte
sequences (any elements below 256, including zero and non-text bytes). -/
theorem c3_roundtrip (key val : List Nat) (db0 : Db)
    (_hk : ∀ b ∈ key, b < 256) (_hv : ∀ b ∈ val, b < 256)
    (hopen : openDb [] [] = some db0) :
    (get (put db0 key val) key).2 = Except.ok ⟨key, val⟩ := by
  have h0 : db0 = freshDb := by
    have he : openDb [] [] = some freshDb := rfl
    rw [he] at hopen
    injection hopen with h
    exact h.symm
  subst h0
  have hi : Inv freshDb := Nat.le_refl 0
  exact get_of_holds _ key val (holds_put_self freshDb key val hi)

theorem c3_roundtrip_witness :
    (get (put freshDb [0, 255, 10] [0, 7]) [0, 255, 10]).2 =
      Except.ok ⟨[0, 255, 10], [0, 7]⟩ :=
  c3_roundtrip [0, 255, 10] [0, 7] freshDb (by decide) (by decide) rfl

/-- C4: last-write-wins.  For any store produced by `open` (on any
pre-existing file contents) and any in-order sequence of `put` calls in
that session, if the last `put` under key `k` stored value `v` then
`get k` returns `v`. -/
theorem c4_last_write_wins (dataC idxC : List Char) (db0 : Db)
    (hopen : openDb dataC idxC = some db0)
    (ops : List (List Nat × List Nat)) (k v : List Nat)
    (hlast : lastVal k ops = some v) :
    (get (putList db0 ops) k).2 = Except.ok ⟨k, v⟩ :=
  get_of_holds _ k v
    (lww_aux ops db0 k v (openDb_inv dataC idxC db0 hopen) (Or.inl hlast))

theorem c4_last_write_wins_witness :
    (get (putList freshDb [([1], [2]), ([1], [3]), ([5], [6]), ([1], [4])]) [1]).2 =
      Except.ok ⟨[1], [4]⟩ :=
  c4_last_write_wins [] [] freshDb rfl
    [([1], [2]), ([1], [3]), ([5], [6]), ([1], [4])] [1] [4] rfl

/-- C5: the spec requires every fallible operation to return a typed
result instead of aborting.  The source `unwrap`s instead: `open` on a
store whose index file holds a line that is not a well-formed entry
panics inside `boot_fill_index` (modelled as `none`) rather than
returning a typed decode error. -/
theorem c5_open_aborts_on_bad_index : openDb [] c5BadIdx = none := by
  rfl

/-- C6: write ordering inside `put`.  The instrumented `put` emits
exactly one index-append event, carrying the key and the current
append offset, strictly before the single data-append event; the
instrumented run computes the same final state as `put`. -/
theorem c6_write_ordering (db : Db) (key val : List Nat) :
    (putTr db key val).1 =
      [Ev.idxAppend key db.last_offset, Ev.dataAppend ⟨key, val⟩] ∧
    (putTr db key val).2 = put db key val :=
  ⟨rfl, rfl⟩

/-- C7: a key absent from the in-memory index makes `get` fail with the
not-found error (a normal result, not a crash). -/
theorem c7_unknown_key (db : Db) (key : List Nat)
    (h : lookupO db.offset key = none) :
    (get db key).2 = Except.error DbError.notFound := by
  simp [get, get_offset, h]

theorem c7_unknown_key_witness :
    (get freshDb [9]).2 = Except.error DbError.notFound :=
  c7_unknown_key freshDb [9] rfl

/-- C8: the spec requires `replay` to surface a malformed line as a
decode error and a read failure as an I/O error.  The source `unwrap`s
the decode result (a panic, modelled as `none`) and silently skips
unreadable lines: replaying an index log whose second line is
malformed aborts instead of returning a typed error. -/
theorem c8_replay_aborts_on_malformed_line :
    boot_fill_index
      { file := [], index_file := c8BadIdx, offset := [], last_offset := 0 } =
      none := by
  rfl

/-- C9: monotonic offsets.  The index entries a session of `put` calls
records are exactly `sessionEntries` (prepended, newest first, to the
map), and their Data Log offsets, in `put` order, never decrease. -/
theorem c9_monotonic_offsets (ops : List (List Nat × List Nat)) (db : Db) :
    (putList db ops).offset = (sessionEntries db ops).reverse ++ db.offset ∧
    List.Pairwise (fun a b => a ≤ b) ((sessionEntries db ops).map Prod.snd) :=
  ⟨putList_offset_entries ops db, sessionEntries_pairwise ops db⟩

/-- C10: `get` is read-only on the store state: it returns the state
unchanged (in particular the key-to-offset map and `last_offset`), and
hence two consecutive `get` calls for the same key return equal
results. -/
theorem c10_get_frame (db : Db) (key : List Nat) :
    (get db key).1 = db ∧ (get ((get db key).1) key).2 = (get db key).2 := by
  have hf : ∀ off, (fetch_db db off).1 = db := by
    intro off
    simp only [fetch_db]
    split <;> rfl
  have hg : (get db key).1 = db := by
    simp only [get]
    split
    · exact hf _
    · rfl
  exact ⟨hg, by rw [hg]⟩

end PocketDb
